import Mathlib

/-!
Verification of the genpkg source-package manager (src/genpkg.py and
src/genpkg1.0.py) against its natural-language specification.

The install/remove lifecycle engine of genpkg1.0.py is embedded as pure
Lean functions.  External actions (running a shell command, downloading a
url, applying a patch, creating or extracting an archive) are abstracted
by a boolean oracle `Env` giving the outcome of each action, exactly at
the points where the Python code can raise.  The recursive dependency
walk `Installer._install_with_deps` is embedded with explicit fuel; the
per-invocation mutable state (installed.json contents, the visited set,
and the observable actions performed) is threaded through a record `St`.
-/

namespace Genpkg

/-- A recipe as loaded from a YAML file (genpkg1.0.py, class `Recipe`):
name, version, source url, dependency names, build commands, patch urls
and the four hook command lists. -/
structure Recipe where
  name : String
  version : String
  url : String
  deps : List String
  commands : List String
  patches : List String
  pre_install : List String
  post_install : List String
  pre_remove : List String
  post_remove : List String
deriving Repr, DecidableEq

/-- Outcome oracle for the external actions of the pipeline: hook commands
(`run_hooks` / `run_cmd`), source download (`http_download`/`git_download`),
patch application (`apply_patches`), one build command (`run_logged`),
packaging (`package_destdir`) and archive extraction into the target root
(`install_package_files`). `true` means the action completes, `false`
means it raises. -/
structure Env where
  runOk : String → Bool
  fetchOk : String → Bool
  patchOk : String → Bool
  cmdOk : String → String → Bool
  packOk : String → Bool
  unpackOk : String → Bool

/-- Observable pipeline events: execution of one build command of a
package (`run_logged` inside `_build_and_install`), and the write of a
package's record into the manifest (`self.db.data[name] = ...; self.db.save()`). -/
inductive Event where
  | buildCmd : String → String → Event
  | record : String → Event
deriving Repr, DecidableEq

/-- The exceptions the pipeline can surface, tagged with the package or
resource they concern. -/
inductive Err where
  | recipeNotFound : String → Err
  | hookFailed : String → Err
  | fetchFailed : String → Err
  | patchFailed : String → Err
  | cmdFailed : String → Err
  | packFailed : String → Err
  | unpackFailed : String → Err
  | outOfFuel : Err
deriving Repr, DecidableEq

/-- The state threaded through an `install` invocation: the manifest
(`db.data`, as an association list name ↦ version in insertion order),
the visited set of `_install_with_deps`, and the trace of observable
events so far. -/
structure St where
  db : List (String × String)
  visited : List String
  trace : List Event
deriving Repr, DecidableEq

/-- The package names recorded in a manifest. -/
def names (db : List (String × String)) : List String := db.map Prod.fst

/-- `run_hooks`: runs each hook command with `check=True`; the whole list
succeeds iff every command does (the first failure raises). -/
def runHooks (env : Env) (hooks : List String) : Bool := hooks.all env.runOk

/-- `apply_patches`: downloads and applies each patch url with
`check=True`; succeeds iff every patch applies. -/
def applyPatches (env : Env) (patches : List String) : Bool :=
  patches.all env.patchOk

/-- The loop `for cmd in recipe.commands: run_logged(cmd, ...)` of
`_build_and_install`: each command is logged (event emitted) and then
run; a non-zero exit raises, aborting the remaining commands. Returns
the extended trace and whether all commands succeeded. -/
def runCmds (env : Env) (pkg : String) : List String → List Event → List Event × Bool
  | [], tr => (tr, true)
  | c :: rest, tr =>
    if env.cmdOk pkg c then runCmds env pkg rest (tr ++ [Event.buildCmd pkg c])
    else (tr ++ [Event.buildCmd pkg c], false)

/-- `Installer._build_and_install` (genpkg1.0.py): pre-install hooks,
fetch source, apply patches, reset DESTDIR (pure here), run the build
commands, optional strip (never raises), package, copy binaries (never
raises), unpack into the target root, post-install hooks, and only then
write the InstallRecord and save the manifest.  Any failure returns the
error with the state reached at that point; the record is written only
in the final, fully successful branch. -/
def build_and_install (env : Env) (r : Recipe) (st : St) : St × Option Err :=
  if runHooks env r.pre_install then
    if env.fetchOk r.url then
      if applyPatches env r.patches then
        let tr := (runCmds env r.name r.commands st.trace).1
        if (runCmds env r.name r.commands st.trace).2 then
          if env.packOk r.name then
            if env.unpackOk r.name then
              if runHooks env r.post_install then
                ({ db := st.db ++ [(r.name, r.version)],
                   visited := st.visited,
                   trace := tr ++ [Event.record r.name] }, none)
              else ({ st with trace := tr }, some (Err.hookFailed r.name))
            else ({ st with trace := tr }, some (Err.unpackFailed r.name))
          else ({ st with trace := tr }, some (Err.packFailed r.name))
        else ({ st with trace := tr }, some (Err.cmdFailed r.name))
      else (st, some (Err.patchFailed r.name))
    else (st, some (Err.fetchFailed r.name))
  else (st, some (Err.hookFailed r.name))

/-- The dependency loop of `_install_with_deps`:
`for d in r.deps: if d not in self.db.data: self._install_with_deps(d, visited)`,
with `step` the recursive call.  An exception in a step propagates
immediately, leaving the remaining dependencies unprocessed. -/
def installList (step : String → St → St × Option Err) :
    List String → St → St × Option Err
  | [], st => (st, none)
  | d :: rest, st =>
    if d ∈ names st.db then installList step rest st
    else
      match step d st with
      | (st1, some e) => (st1, some e)
      | (st1, none) => installList step rest st1

/-- `Installer._install_with_deps` (genpkg1.0.py): return silently if the
name is already in the visited set, else add it, resolve the recipe
(`self.recipes.find`, raising if absent), install missing dependencies
first, then skip if already installed, else build and install.  `fuel`
bounds the recursion depth (the Python recursion is bounded by the
visited set; fuel exhaustion is reported as an error and never occurs at
sufficient fuel). -/
def install_with_deps (env : Env) (find : String → Option Recipe) :
    Nat → String → St → St × Option Err
  | 0, _, st => (st, some Err.outOfFuel)
  | fuel + 1, name, st =>
    if name ∈ st.visited then (st, none)
    else
      let st1 : St := { st with visited := st.visited ++ [name] }
      match find name with
      | none => (st1, some (Err.recipeNotFound name))
      | some r =>
        match installList (install_with_deps env find fuel) r.deps st1 with
        | (st2, some e) => (st2, some e)
        | (st2, none) =>
          if name ∈ names st2.db then (st2, none)
          else build_and_install env r st2

/-- `Installer.install`: the public entry point; starts with a fresh
(empty) visited set over the current manifest contents. -/
def install (env : Env) (find : String → Option Recipe) (fuel : Nat)
    (name : String) (db : List (String × String)) : St × Option Err :=
  install_with_deps env find fuel name { db := db, visited := [], trace := [] }

/-- A recipe store is coherent when the recipe resolved for a name
carries that name (the YAML `nome` field matches the file name the index
is keyed by). -/
def Coherent (find : String → Option Recipe) : Prop :=
  ∀ n r, find n = some r → r.name = n

/-- All external steps of a recipe's pipeline succeed: pre-install
hooks, fetch, patches, every build command, packaging, unpack, and
post-install hooks.  These are exactly the fallible steps performed
before the InstallRecord is written. -/
def pipelineOk (env : Env) (r : Recipe) : Bool :=
  runHooks env r.pre_install && env.fetchOk r.url && applyPatches env r.patches &&
  r.commands.all (env.cmdOk r.name) && env.packOk r.name && env.unpackOk r.name &&
  runHooks env r.post_install

/-- The build-command events a fully successful build of `r` emits. -/
def cmdEvents (r : Recipe) : List Event :=
  r.commands.map (Event.buildCmd r.name)

/-! ### Path resolution

`(target_root / rel).resolve()` and `os.path.join(root, name)` as used by
`Installer.remove` and `tarfile.extractall`: join (an absolute second
component replaces the root) and lexical normalization of `.`, `..` and
repeated slashes.  Symlink resolution is out of scope; paths are plain
strings. -/

/-- Python `str.startswith` (and `tarinfo.name.startswith("/")`): is
`pre` a character-wise prefix of `s`? -/
def strStartsWith (s pre : String) : Bool :=
  pre.data.isPrefixOf s.data

/-- Split a character list on a separator (Python `str.split`). -/
def splitChars (sep : Char) : List Char → List (List Char)
  | [] => [[]]
  | c :: rest =>
    match splitChars sep rest with
    | [] => [[]]
    | seg :: segs => if c = sep then [] :: seg :: segs else (c :: seg) :: segs

/-- Python `p.split("/")`-style segment split of a string. -/
def splitSeg (s : String) (sep : Char) : List String :=
  (splitChars sep s.data).map String.mk

/-- Join segments with "/" (Python `"/".join`). -/
def interSlash : List String → String
  | [] => ""
  | [s] => s
  | s :: s2 :: rest => s ++ "/" ++ interSlash (s2 :: rest)

/-- Python lexicographic string order (by code point), the order
`sorted` uses. -/
def charsLe : List Char → List Char → Bool
  | [], _ => true
  | _ :: _, [] => false
  | a :: as, b :: bs => if a = b then charsLe as bs else decide (a.val < b.val)

def strSortLe (a b : String) : Bool := charsLe a.data b.data

/-- Stable insertion into a sorted list. -/
def insertSorted {α : Type} (le : α → α → Bool) (x : α) : List α → List α
  | [] => [x]
  | y :: ys => if le x y then x :: y :: ys else y :: insertSorted le x ys

/-- Stable sort by a boolean comparison — Python `sorted` (equal keys
keep their original relative order since `le` is reflexive for the
orders used here). -/
def sortBy {α : Type} (le : α → α → Bool) : List α → List α
  | [] => []
  | x :: xs => insertSorted le x (sortBy le xs)

/-- Lexically resolve `rel` against the absolute directory `root`,
mirroring `pathlib.Path.resolve`: absolute `rel` stands alone, `.` and
empty segments vanish, `..` pops one segment (staying at the root when
already there). -/
def resolvePath (root : String) (rel : String) : String :=
  let s := if strStartsWith rel "/" then rel else root ++ "/" ++ rel
  let segs := (splitSeg s '/').filter (fun seg => seg ≠ "" && seg ≠ ".")
  let stack := segs.foldl (fun acc seg => if seg = ".." then acc.tail else seg :: acc) []
  "/" ++ interSlash stack.reverse

/-! ### `install_package_files` (genpkg1.0.py, the Unpack operation)

The archive is represented by the list of its member names.  The Python
code first walks over all members and raises on any name starting with
"/"; only after that loop does it call `tar.extractall(path=target_root)`
and build the created-files list (member names, set-deduplicated and
sorted).  `extractall` places member `m` at `os.path.join(root, m)`,
i.e. on the real filesystem at `resolvePath root m`; members containing
`..` are extracted as-is (CPython `tarfile` applies no filter here). -/

/-- Result of `install_package_files`: the returned created-files list
together with the list of filesystem locations actually written, or the
`RuntimeError` raised on an absolute member name (in which case nothing
has been extracted). -/
def install_package_files (members : List String) (root : String) :
    Except String (List String × List String) :=
  if members.any (fun m => strStartsWith m "/") then
    Except.error "Entrada invalida no tar"
  else
    Except.ok (sortBy strSortLe members.eraseDups,
      members.map (fun m => resolvePath root m))

/-- The filesystem locations `install_package_files` writes: none when it
raises, the extraction targets of all members otherwise. -/
def unpackWrites (members : List String) (root : String) : List String :=
  match install_package_files members root with
  | Except.error _ => []
  | Except.ok (_, writes) => writes

/-! ### `Installer.remove` (genpkg1.0.py): the manifest-driven file loop

The filesystem is an association list from absolute path to kind.  The
loop walks the record's relative paths, deepest (most segments) first,
resolves each against the install root, skips it when the root is the
real "/" and no allow-listed prefix matches, unlinks files and symlinks,
and calls `rmdir` on directories with the `OSError` (non-empty) swallowed.
`unlink(missing_ok=True)` and the surrounding `except: pass` make every
per-path failure silent. -/

inductive FKind where
  | file
  | symlink
  | dir
deriving Repr, DecidableEq

/-- A filesystem: absolute paths with their kinds. -/
abbrev FS := List (String × FKind)

/-- Kind of the entry at `p`, if present (first match). -/
def lookupKind (fs : FS) (p : String) : Option FKind :=
  match fs.find? (fun q => q.1 = p) with
  | some q => some q.2
  | none => none

/-- Whether directory `p` still contains an entry (any path strictly
below `p`); `rmdir` fails with `OSError` exactly then. -/
def hasChild (fs : FS) (p : String) : Bool :=
  fs.any (fun q => q.1 ≠ p && strStartsWith q.1 (p ++ "/"))

/-- Delete the entry at path `p`. -/
def eraseP (fs : FS) (p : String) : FS :=
  fs.filter (fun q => q.1 ≠ p)

/-- `ALLOWED_REMOVE_PREFIXES` (genpkg1.0.py line 80). -/
def ALLOWED_REMOVE_PREFIXES : List String :=
  ["/usr", "/etc", "/var", "/opt", "/bin", "/sbin", "/lib", "/lib64", "/usr/local"]

/-- One iteration of the removal loop for relative path `rel`. -/
def removeStep (root : String) (fs : FS) (rel : String) : FS :=
  let a := resolvePath root rel
  if root = "/" && !(ALLOWED_REMOVE_PREFIXES.any (fun pref => strStartsWith a pref)) then
    fs
  else
    match lookupKind fs a with
    | some FKind.file => eraseP fs a
    | some FKind.symlink => eraseP fs a
    | some FKind.dir => if hasChild fs a then fs else eraseP fs a
    | none => fs

/-- Number of path segments, the sort key
`len(p.split("/"))` of the removal loop. -/
def depthOf (p : String) : Nat := (splitSeg p '/').length

/-- The removal loop over a record's file list:
`for rel in sorted(files, key=lambda p: len(p.split("/")), reverse=True)`. -/
def removeFiles (root : String) (files : List String) (fs : FS) : FS :=
  (sortBy (fun a b => decide (depthOf b ≤ depthOf a)) files).foldl (removeStep root) fs

/-! ### `DB._load` (both versions)

If `installed.json` does not exist the manifest starts empty; if it
exists, `json.load` is attempted and any exception yields the empty
mapping.  The JSON codec itself is out of scope and abstracted by a
parse function. -/

/-- `DB._load`, with `contents` the state of the manifest file
(`none` = file absent) and `parse` the JSON decoder (`none` = raises). -/
def dbLoad (parse : String → Option (List (String × String)))
    (contents : Option String) : List (String × String) :=
  match contents with
  | none => []
  | some s =>
    match parse s with
    | some d => d
    | none => []

/-! ### Per-package log files

genpkg1.0.py `run_logged` opens the per-package log with mode "a"
(append), writes a `$ command` header line and then the command's
combined output; a failing command aborts the remaining ones.
genpkg.py (v0.9) `_run_build_commands` instead opens the log with mode
"w" once per build, so the file is truncated and holds only the current
run's output (no header lines are written there).  Logs are lists of
lines; `out c` is the combined output of command `c`. -/

/-- genpkg1.0.py `run_logged`: append the command header and its output
to the existing log contents. -/
def run_logged (log : List String) (cmd : String) (output : List String) :
    List String :=
  log ++ (("$ " ++ cmd) :: output)

/-- The command loop of `_build_and_install` as it affects the log file
(genpkg1.0.py): each command appends via `run_logged`; a failing command
(oracle `ok`) stops the loop, keeping what was already appended. -/
def runBuildLog10 (ok : String → Bool) (out : String → List String) :
    List String → List String → List String
  | [], log => log
  | c :: rest, log =>
    if ok c then runBuildLog10 ok out rest (run_logged log c (out c))
    else run_logged log c (out c)

/-- genpkg.py `_run_build_commands` as it affects the log file: the log
is opened with mode "w", so the previous contents `_oldLog` are
discarded and the new contents are just the outputs of the commands run
(all of them, when every command succeeds). -/
def runBuildLog09 (out : String → List String) (cmds : List String)
    (_oldLog : List String) : List String :=
  (cmds.map out).flatten

/-! ### Helper lemmas -/

theorem pfx_mem {α : Type} {l1 l2 : List α} {a : α} (h : l1 <+: l2) (ha : a ∈ l1) :
    a ∈ l2 := h.sublist.mem ha

theorem names_append (a b : List (String × String)) :
    names (a ++ b) = names a ++ names b := List.map_append _ _ _

theorem mem_names_mono {a b : List (String × String)} {n : String}
    (h : a <+: b) (hn : n ∈ names a) : n ∈ names b := by
  rcases h with ⟨t, rfl⟩
  rw [names_append]
  exact List.mem_append_left _ hn

theorem runCmds_trace (env : Env) (pkg : String) (cmds : List String)
    (tr : List Event) :
    ∃ d, (runCmds env pkg cmds tr).1 = tr ++ d ∧
      ∀ e ∈ d, ∃ c, e = Event.buildCmd pkg c := by
  induction cmds generalizing tr with
  | nil => exact ⟨[], by simp [runCmds]⟩
  | cons c rest ih =>
    by_cases h : env.cmdOk pkg c
    · rcases ih (tr ++ [Event.buildCmd pkg c]) with ⟨d, hd, hde⟩
      refine ⟨Event.buildCmd pkg c :: d, ?_, ?_⟩
      · simp [runCmds, h, hd]
      · intro e he
        rcases List.mem_cons.mp he with he | he
        · exact ⟨c, he⟩
        · exact hde e he
    · refine ⟨[Event.buildCmd pkg c], ?_, ?_⟩
      · simp [runCmds, h]
      · intro e he
        simp only [List.mem_singleton] at he
        exact ⟨c, he⟩

theorem runCmds_of_all (env : Env) (pkg : String) (cmds : List String)
    (tr : List Event) (h : cmds.all (env.cmdOk pkg) = true) :
    runCmds env pkg cmds tr = (tr ++ cmds.map (Event.buildCmd pkg), true) := by
  induction cmds generalizing tr with
  | nil => simp [runCmds]
  | cons c rest ih =>
    simp only [List.all_cons, Bool.and_eq_true] at h
    simp [runCmds, h.1, ih _ h.2]

theorem runCmds_all_of_true (env : Env) (pkg : String) (cmds : List String)
    (tr : List Event) (h : (runCmds env pkg cmds tr).2 = true) :
    cmds.all (env.cmdOk pkg) = true := by
  induction cmds generalizing tr with
  | nil => simp
  | cons c rest ih =>
    by_cases hc : env.cmdOk pkg c
    · simp only [runCmds, hc, if_pos] at h
      simp [hc, ih _ h]
    · simp [runCmds, hc] at h

/-! ### Lemmas about `build_and_install` -/

theorem bi_visited (env : Env) (r : Recipe) (st : St) :
    (build_and_install env r st).1.visited = st.visited := by
  unfold build_and_install
  split <;> [skip; rfl]
  split <;> [skip; rfl]
  split <;> [skip; rfl]
  split <;> [skip; rfl]
  split <;> [skip; rfl]
  split <;> [skip; rfl]
  split <;> rfl

theorem bi_of_pipelineOk (env : Env) (r : Recipe) (st : St)
    (h : pipelineOk env r = true) :
    build_and_install env r st =
      ({ db := st.db ++ [(r.name, r.version)],
         visited := st.visited,
         trace := st.trace ++ cmdEvents r ++ [Event.record r.name] }, none) := by
  unfold pipelineOk at h
  simp only [Bool.and_eq_true] at h
  obtain ⟨⟨⟨⟨⟨⟨h1, h2⟩, h3⟩, h4⟩, h5⟩, h6⟩, h7⟩
    := h
  unfold build_and_install
  rw [runCmds_of_all env r.name r.commands st.trace h4]
  simp [h1, h2, h3, h5, h6, h7, cmdEvents]

theorem bi_db_or (env : Env) (r : Recipe) (st : St) :
    (build_and_install env r st).1.db = st.db ∨
      (build_and_install env r st).2 = none := by
  unfold build_and_install
  split <;> [skip; exact Or.inl rfl]
  split <;> [skip; exact Or.inl rfl]
  split <;> [skip; exact Or.inl rfl]
  split <;> [skip; exact Or.inl rfl]
  split <;> [skip; exact Or.inl rfl]
  split <;> [skip; exact Or.inl rfl]
  split
  · exact Or.inr rfl
  · exact Or.inl rfl

theorem bi_db_of_err (env : Env) (r : Recipe) (st : St) (e : Err)
    (h : (build_and_install env r st).2 = some e) :
    (build_and_install env r st).1.db = st.db := by
  rcases bi_db_or env r st with h' | h'
  · exact h'
  · rw [h'] at h
    exact Option.noConfusion h

theorem bi_pipelineOk_of_ok (env : Env) (r : Recipe) (st : St)
    (h : (build_and_install env r st).2 = none) :
    pipelineOk env r = true := by
  unfold build_and_install at h
  split at h <;> rename_i h1 <;> [skip; simp at h]
  split at h <;> rename_i h2 <;> [skip; simp at h]
  split at h <;> rename_i h3 <;> [skip; simp at h]
  split at h <;> rename_i h4 <;> [skip; simp at h]
  split at h <;> rename_i h5 <;> [skip; simp at h]
  split at h <;> rename_i h6 <;> [skip; simp at h]
  split at h <;> rename_i h7 <;> [skip; simp at h]
  unfold pipelineOk
  simp [h1, h2, h3, h5, h6, h7, runCmds_all_of_true env r.name r.commands st.trace h4]

theorem bi_trace (env : Env) (r : Recipe) (st : St) :
    ∃ d, (build_and_install env r st).1.trace = st.trace ++ d ∧
      ∀ e ∈ d, (∃ c, e = Event.buildCmd r.name c) ∨ e = Event.record r.name := by
  rcases runCmds_trace env r.name r.commands st.trace with ⟨d0, hd0, hd0e⟩
  unfold build_and_install
  split <;> [skip; exact ⟨[], by simp⟩]
  split <;> [skip; exact ⟨[], by simp⟩]
  split <;> [skip; exact ⟨[], by simp⟩]
  split
  · split <;> [skip; exact ⟨d0, by simp [hd0], fun e he => Or.inl (hd0e e he)⟩]
    split <;> [skip; exact ⟨d0, by simp [hd0], fun e he => Or.inl (hd0e e he)⟩]
    split
    · refine ⟨d0 ++ [Event.record r.name], by simp [hd0], ?_⟩
      intro e he
      rcases List.mem_append.mp he with he | he
      · exact Or.inl (hd0e e he)
      · simp only [List.mem_singleton] at he
        exact Or.inr he
    · exact ⟨d0, by simp [hd0], fun e he => Or.inl (hd0e e he)⟩
  · exact ⟨d0, by simp [hd0], fun e he => Or.inl (hd0e e he)⟩

theorem bi_db_cases (env : Env) (r : Recipe) (st : St) (n : String)
    (h : n ∈ names (build_and_install env r st).1.db) :
    n ∈ names st.db ∨ (n = r.name ∧ pipelineOk env r = true ∧
      Event.record n ∈ (build_and_install env r st).1.trace) := by
  rcases he : (build_and_install env r st).2 with _ | e
  · have hp := bi_pipelineOk_of_ok env r st he
    rw [bi_of_pipelineOk env r st hp] at h ⊢
    simp only [names_append] at h
    rcases List.mem_append.mp h with h | h
    · exact Or.inl h
    · simp only [names, List.map_cons, List.map_nil, List.mem_singleton] at h
      refine Or.inr ⟨h, hp, ?_⟩
      simp [h]
  · rw [bi_db_of_err env r st e he] at h
    exact Or.inl h

theorem bi_db_grow (env : Env) (r : Recipe) (st : St) :
    st.db <+: (build_and_install env r st).1.db := by
  unfold build_and_install
  split <;> [skip; exact List.prefix_refl _]
  split <;> [skip; exact List.prefix_refl _]
  split <;> [skip; exact List.prefix_refl _]
  split <;> [skip; exact List.prefix_refl _]
  split <;> [skip; exact List.prefix_refl _]
  split <;> [skip; exact List.prefix_refl _]
  split
  · exact ⟨[(r.name, r.version)], rfl⟩
  · exact List.prefix_refl _

theorem bi_trace_grow (env : Env) (r : Recipe) (st : St) :
    st.trace <+: (build_and_install env r st).1.trace := by
  rcases bi_trace env r st with ⟨d, hd, _⟩
  exact ⟨d, hd.symm⟩

theorem bi_record_of_ok (env : Env) (r : Recipe) (st : St)
    (h : (build_and_install env r st).2 = none) :
    r.name ∈ names (build_and_install env r st).1.db := by
  have hp := bi_pipelineOk_of_ok env r st h
  rw [bi_of_pipelineOk env r st hp]
  simp [names]

/-! ### State monotonicity

An invocation of the install machinery only ever appends to the
manifest, the visited set and the event trace. -/

/-- `s'` extends `s`: manifest, visited set and trace of `s` are
prefixes of those of `s'`. -/
def StMono (s s' : St) : Prop :=
  s.db <+: s'.db ∧ s.visited <+: s'.visited ∧ s.trace <+: s'.trace

theorem StMono.rfl (s : St) : StMono s s :=
  ⟨List.prefix_refl _, List.prefix_refl _, List.prefix_refl _⟩

theorem StMono.trans {a b c : St} (h1 : StMono a b) (h2 : StMono b c) :
    StMono a c :=
  ⟨h1.1.trans h2.1, h1.2.1.trans h2.2.1, h1.2.2.trans h2.2.2⟩

theorem bi_mono (env : Env) (r : Recipe) (st : St) :
    StMono st (build_and_install env r st).1 :=
  ⟨bi_db_grow env r st, by rw [bi_visited], bi_trace_grow env r st⟩

theorem installList_mono (step : String → St → St × Option Err)
    (hstep : ∀ d s, StMono s (step d s).1) :
    ∀ (l : List String) (s : St), StMono s (installList step l s).1 := by
  intro l
  induction l with
  | nil => intro s; exact StMono.rfl s
  | cons d rest ih =>
    intro s
    by_cases hd : d ∈ names s.db
    · simp only [installList, if_pos hd]
      exact ih s
    · simp only [installList, if_neg hd]
      rcases hstp : step d s with ⟨s1, e⟩
      have hm : StMono s s1 := by
        have := hstep d s
        rw [hstp] at this
        exact this
      cases e with
      | none => exact hm.trans (ih s1)
      | some e => exact hm

theorem install_with_deps_mono (env : Env) (find : String → Option Recipe) :
    ∀ (fuel : Nat) (name : String) (s : St),
      StMono s (install_with_deps env find fuel name s).1 := by
  intro fuel
  induction fuel with
  | zero => intro name s; exact StMono.rfl s
  | succ fuel ih =>
    intro name s
    by_cases hv : name ∈ s.visited
    · simp only [install_with_deps, if_pos hv]
      exact StMono.rfl s
    · simp only [install_with_deps, if_neg hv]
      have hm1 : StMono s { s with visited := s.visited ++ [name] } :=
        ⟨List.prefix_refl _, ⟨[name], rfl⟩, List.prefix_refl _⟩
      cases hf : find name with
      | none => exact hm1
      | some r =>
        rcases hl : installList (install_with_deps env find fuel) r.deps
            { s with visited := s.visited ++ [name] } with ⟨st2, e2⟩
        have hm2 : StMono { s with visited := s.visited ++ [name] } st2 := by
          have := installList_mono (install_with_deps env find fuel)
            (fun d s0 => ih d s0) r.deps { s with visited := s.visited ++ [name] }
          rw [hl] at this
          exact this
        cases e2 with
        | some e =>
          simp only [hl]
          exact hm1.trans hm2
        | none =>
          simp only [hl]
          by_cases hdb : name ∈ names st2.db
          · simp only [if_pos hdb]
            exact hm1.trans hm2
          · simp only [if_neg hdb]
            exact (hm1.trans hm2).trans (bi_mono env r st2)

/-! ### Invariants of the recursive dependency walk -/

/-- A first (not yet visited) invocation of a name that returns without
an exception leaves that name recorded in the manifest. -/
theorem install_with_deps_key (env : Env) (find : String → Option Recipe)
    (hco : Coherent find) :
    ∀ (fuel : Nat) (name : String) (s s' : St),
      install_with_deps env find fuel name s = (s', none) →
      name ∉ s.visited → name ∈ names s'.db := by
  intro fuel name s s' h hv
  cases fuel with
  | zero =>
    simp only [install_with_deps, Prod.mk.injEq] at h
    exact Option.noConfusion h.2
  | succ fuel =>
    simp only [install_with_deps, if_neg hv] at h
    cases hf : find name with
    | none =>
      simp only [hf, Prod.mk.injEq] at h
      exact Option.noConfusion h.2
    | some r =>
      simp only [hf] at h
      rcases hl : installList (install_with_deps env find fuel) r.deps
          { s with visited := s.visited ++ [name] } with ⟨st2, e2⟩
      cases e2 with
      | some e =>
        simp only [hl, Prod.mk.injEq] at h
        exact Option.noConfusion h.2
      | none =>
        simp only [hl] at h
        by_cases hdb : name ∈ names st2.db
        · simp only [if_pos hdb, Prod.mk.injEq] at h
          rw [← h.1]
          exact hdb
        · simp only [if_neg hdb] at h
          have hn := bi_record_of_ok env r st2 (by rw [h])
          rw [h] at hn
          rw [hco name r hf] at hn
          exact hn

/-- Build commands observed in the trace of the dependency loop belong
to packages that were not in the visited set when the loop started. -/
theorem installList_build (step : String → St → St × Option Err)
    (hmono : ∀ d s, StMono s (step d s).1)
    (hb : ∀ d s p c, Event.buildCmd p c ∈ (step d s).1.trace →
        Event.buildCmd p c ∈ s.trace ∨ p ∉ s.visited) :
    ∀ (l : List String) (s : St) (p c : String),
      Event.buildCmd p c ∈ (installList step l s).1.trace →
      Event.buildCmd p c ∈ s.trace ∨ p ∉ s.visited := by
  intro l
  induction l with
  | nil => intro s p c h; exact Or.inl h
  | cons d rest ih =>
    intro s p c h
    by_cases hd : d ∈ names s.db
    · simp only [installList, if_pos hd] at h
      exact ih s p c h
    · simp only [installList, if_neg hd] at h
      rcases hstp : step d s with ⟨s1, e⟩
      rw [hstp] at h
      have hm : StMono s s1 := by
        have := hmono d s
        rw [hstp] at this
        exact this
      have hb1 : Event.buildCmd p c ∈ s1.trace →
          Event.buildCmd p c ∈ s.trace ∨ p ∉ s.visited := by
        intro hin
        have := hb d s p c
        rw [hstp] at this
        exact this hin
      cases e with
      | some e => exact hb1 h
      | none =>
        rcases ih s1 p c h with h1 | h1
        · exact hb1 h1
        · exact Or.inr (fun hc => h1 (pfx_mem hm.2.1 hc))

/-- Build commands observed in the trace of `_install_with_deps` belong
to packages not visited at entry. -/
theorem install_with_deps_build (env : Env) (find : String → Option Recipe)
    (hco : Coherent find) :
    ∀ (fuel : Nat) (name : String) (s : St) (p c : String),
      Event.buildCmd p c ∈ (install_with_deps env find fuel name s).1.trace →
      Event.buildCmd p c ∈ s.trace ∨ p ∉ s.visited := by
  intro fuel
  induction fuel with
  | zero => intro name s p c h; exact Or.inl h
  | succ fuel ih =>
    intro name s p c h
    by_cases hv : name ∈ s.visited
    · simp only [install_with_deps, if_pos hv] at h
      exact Or.inl h
    · simp only [install_with_deps, if_neg hv] at h
      cases hf : find name with
      | none =>
        simp only [hf] at h
        exact Or.inl h
      | some r =>
        simp only [hf] at h
        rcases hl : installList (install_with_deps env find fuel) r.deps
            { s with visited := s.visited ++ [name] } with ⟨st2, e2⟩
        have hloop : Event.buildCmd p c ∈ st2.trace →
            Event.buildCmd p c ∈ s.trace ∨ p ∉ s.visited := by
          intro hin
          have := installList_build (install_with_deps env find fuel)
            (fun d s0 => install_with_deps_mono env find fuel d s0)
            (fun d s0 => ih d s0) r.deps
            { s with visited := s.visited ++ [name] } p c
          rw [hl] at this
          rcases this hin with h1 | h1
          · exact Or.inl h1
          · exact Or.inr (fun hc => h1 (List.mem_append_left _ hc))
        cases e2 with
        | some e =>
          simp only [hl] at h
          exact hloop h
        | none =>
          simp only [hl] at h
          by_cases hdb : name ∈ names st2.db
          · simp only [if_pos hdb] at h
            exact hloop h
          · simp only [if_neg hdb] at h
            rcases bi_trace env r st2 with ⟨d0, hd0, hd0e⟩
            rw [hd0] at h
            rcases List.mem_append.mp h with h1 | h1
            · exact hloop h1
            · rcases hd0e _ h1 with ⟨c1, hc1⟩ | hc1
              · have hp : p = r.name := by
                  injection hc1 with hp hc
                rw [hp, hco name r hf]
                exact Or.inr hv
              · exact Event.noConfusion hc1

/-- Every package newly present in the manifest after the dependency
loop has a record event in the trace (generic in the step). -/
theorem installList_rec (step : String → St → St × Option Err)
    (hmono : ∀ d s, StMono s (step d s).1)
    (hrec : ∀ d s n, n ∈ names (step d s).1.db →
        n ∈ names s.db ∨ Event.record n ∈ (step d s).1.trace) :
    ∀ (l : List String) (s : St) (n : String),
      n ∈ names (installList step l s).1.db →
      n ∈ names s.db ∨ Event.record n ∈ (installList step l s).1.trace := by
  intro l
  induction l with
  | nil => intro s n h; exact Or.inl h
  | cons d rest ih =>
    intro s n h
    by_cases hd : d ∈ names s.db
    · simp only [installList, if_pos hd] at h ⊢
      exact ih s n h
    · simp only [installList, if_neg hd] at h ⊢
      rcases hstp : step d s with ⟨s1, e⟩
      have hr1 : n ∈ names s1.db → n ∈ names s.db ∨ Event.record n ∈ s1.trace := by
        intro hin
        have := hrec d s n
        rw [hstp] at this
        exact this hin
      cases e with
      | some e =>
        simp only [hstp] at h ⊢
        exact hr1 h
      | none =>
        simp only [hstp] at h ⊢
        have hm1 : StMono s1 (installList step rest s1).1 :=
          installList_mono step hmono rest s1
        rcases ih s1 n h with h1 | h1
        · rcases hr1 h1 with h2 | h2
          · exact Or.inl h2
          · exact Or.inr (pfx_mem hm1.2.2 h2)
        · exact Or.inr h1

/-- Every package newly present in the manifest after
`_install_with_deps` has a record event in the trace. -/
theorem install_with_deps_rec (env : Env) (find : String → Option Recipe) :
    ∀ (fuel : Nat) (name : String) (s : St) (n : String),
      n ∈ names (install_with_deps env find fuel name s).1.db →
      n ∈ names s.db ∨
        Event.record n ∈ (install_with_deps env find fuel name s).1.trace := by
  intro fuel
  induction fuel with
  | zero => intro name s n h; exact Or.inl h
  | succ fuel ih =>
    intro name s n h
    by_cases hv : name ∈ s.visited
    · simp only [install_with_deps, if_pos hv] at h
      exact Or.inl h
    · simp only [install_with_deps, if_neg hv] at h ⊢
      cases hf : find name with
      | none =>
        simp only [hf] at h ⊢
        exact Or.inl h
      | some r =>
        simp only [hf] at h ⊢
        rcases hl : installList (install_with_deps env find fuel) r.deps
            { s with visited := s.visited ++ [name] } with ⟨st2, e2⟩
        have hloop : n ∈ names st2.db →
            n ∈ names s.db ∨ Event.record n ∈ st2.trace := by
          intro hin
          have := installList_rec (install_with_deps env find fuel)
            (fun d s0 => install_with_deps_mono env find fuel d s0)
            (fun d s0 => ih d s0) r.deps
            { s with visited := s.visited ++ [name] } n
          rw [hl] at this
          exact this hin
        cases e2 with
        | some e =>
          simp only [hl] at h ⊢
          exact hloop h
        | none =>
          simp only [hl] at h ⊢
          by_cases hdb : name ∈ names st2.db
          · simp only [if_pos hdb] at h ⊢
            exact hloop h
          · simp only [if_neg hdb] at h ⊢
            rcases bi_db_cases env r st2 n h with h1 | h1
            · rcases hloop h1 with h2 | h2
              · exact Or.inl h2
              · exact Or.inr (pfx_mem (bi_trace_grow env r st2) h2)
            · exact Or.inr h1.2.2

/-- Every package newly present in the manifest after
`_install_with_deps` had its whole pipeline (pre-install hooks, fetch,
patches, every build command, packaging, unpack, post-install hooks)
succeed — generic step version. -/
theorem installList_pipe (env : Env) (find : String → Option Recipe)
    (step : String → St → St × Option Err)
    (hpipe : ∀ d s n, n ∈ names (step d s).1.db →
        n ∈ names s.db ∨ ∃ r, find n = some r ∧ pipelineOk env r = true) :
    ∀ (l : List String) (s : St) (n : String),
      n ∈ names (installList step l s).1.db →
      n ∈ names s.db ∨ ∃ r, find n = some r ∧ pipelineOk env r = true := by
  intro l
  induction l with
  | nil => intro s n h; exact Or.inl h
  | cons d rest ih =>
    intro s n h
    by_cases hd : d ∈ names s.db
    · simp only [installList, if_pos hd] at h
      exact ih s n h
    · simp only [installList, if_neg hd] at h
      rcases hstp : step d s with ⟨s1, e⟩
      rw [hstp] at h
      have hp1 : n ∈ names s1.db →
          n ∈ names s.db ∨ ∃ r, find n = some r ∧ pipelineOk env r = true := by
        intro hin
        have := hpipe d s n
        rw [hstp] at this
        exact this hin
      cases e with
      | some e => exact hp1 h
      | none =>
        rcases ih s1 n h with h1 | h1
        · exact hp1 h1
        · exact Or.inr h1

/-- A package recorded by `_install_with_deps` that was not recorded
before had every step of its pipeline succeed. -/
theorem install_with_deps_pipe (env : Env) (find : String → Option Recipe)
    (hco : Coherent find) :
    ∀ (fuel : Nat) (name : String) (s : St) (n : String),
      n ∈ names (install_with_deps env find fuel name s).1.db →
      n ∈ names s.db ∨ ∃ r, find n = some r ∧ pipelineOk env r = true := by
  intro fuel
  induction fuel with
  | zero => intro name s n h; exact Or.inl h
  | succ fuel ih =>
    intro name s n h
    by_cases hv : name ∈ s.visited
    · simp only [install_with_deps, if_pos hv] at h
      exact Or.inl h
    · simp only [install_with_deps, if_neg hv] at h
      cases hf : find name with
      | none =>
        simp only [hf] at h
        exact Or.inl h
      | some r =>
        simp only [hf] at h
        rcases hl : installList (install_with_deps env find fuel) r.deps
            { s with visited := s.visited ++ [name] } with ⟨st2, e2⟩
        have hloop : n ∈ names st2.db →
            n ∈ names s.db ∨ ∃ r0, find n = some r0 ∧ pipelineOk env r0 = true := by
          intro hin
          have := installList_pipe env find (install_with_deps env find fuel)
            (fun d s0 => ih d s0) r.deps
            { s with visited := s.visited ++ [name] } n
          rw [hl] at this
          exact this hin
        cases e2 with
        | some e =>
          simp only [hl] at h
          exact hloop h
        | none =>
          simp only [hl] at h
          by_cases hdb : name ∈ names st2.db
          · simp only [if_pos hdb] at h
            exact hloop h
          · simp only [if_neg hdb] at h
            rcases bi_db_cases env r st2 n h with h1 | h1
            · exact hloop h1
            · refine Or.inr ⟨r, ?_, h1.2.1⟩
              rw [h1.1, hco name r hf]
              exact hf

/-! ### The visited set versus the manifest

Every visited name is either already recorded or among the calls still
in progress (`C`).  This is what makes the silent visited-set early
return correct for the dependency-ordering property: a dependency found
visited during the loop of a top-level install is either recorded or the
top-level package itself. -/

/-- All visited names are recorded or in the in-progress list `C`. -/
def VisOK (s : St) (C : List String) : Prop :=
  ∀ v ∈ s.visited, v ∈ names s.db ∨ v ∈ C

theorem VisOK_weaken {s : St} {C : List String} (x : String)
    (h : VisOK s C) : VisOK s (x :: C) := by
  intro v hv
  rcases h v hv with h1 | h1
  · exact Or.inl h1
  · exact Or.inr (List.mem_cons_of_mem _ h1)

/-- A successful step on `d` preserves `VisOK` with unchanged `C`. -/
theorem VisOK_after_step (step : String → St → St × Option Err)
    (hmono : ∀ d s, StMono s (step d s).1)
    (hkey : ∀ d s s1, step d s = (s1, none) → d ∉ s.visited → d ∈ names s1.db)
    (hvis : ∀ d s s1 C, step d s = (s1, none) → VisOK s C → VisOK s1 (d :: C))
    (d : String) (s s1 : St) (C : List String)
    (hstp : step d s = (s1, none)) (h : VisOK s C) : VisOK s1 C := by
  intro v hv
  rcases hvis d s s1 C hstp h v hv with h1 | h1
  · exact Or.inl h1
  · rcases List.mem_cons.mp h1 with h2 | h2
    · by_cases hdv : d ∈ s.visited
      · rcases h d hdv with h3 | h3
        · refine Or.inl ?_
          rw [h2]
          have hm := hmono d s
          rw [hstp] at hm
          exact mem_names_mono hm.1 h3
        · exact Or.inr (h2 ▸ h3)
      · refine Or.inl ?_
        rw [h2]
        exact hkey d s s1 hstp hdv
    · exact Or.inr h2

/-- The dependency loop preserves `VisOK` (generic in the step). -/
theorem installList_vis (step : String → St → St × Option Err)
    (hmono : ∀ d s, StMono s (step d s).1)
    (hkey : ∀ d s s1, step d s = (s1, none) → d ∉ s.visited → d ∈ names s1.db)
    (hvis : ∀ d s s1 C, step d s = (s1, none) → VisOK s C → VisOK s1 (d :: C)) :
    ∀ (l : List String) (s s' : St) (C : List String),
      installList step l s = (s', none) → VisOK s C → VisOK s' C := by
  intro l
  induction l with
  | nil =>
    intro s s' C h hv
    simp only [installList, Prod.mk.injEq] at h
    rw [← h.1]
    exact hv
  | cons d rest ih =>
    intro s s' C h hv
    by_cases hd : d ∈ names s.db
    · simp only [installList, if_pos hd] at h
      exact ih s s' C h hv
    · simp only [installList, if_neg hd] at h
      rcases hstp : step d s with ⟨s1, e⟩
      cases e with
      | some e =>
        simp only [hstp, Prod.mk.injEq] at h
        exact Option.noConfusion h.2
      | none =>
        simp only [hstp] at h
        exact ih s1 s' C h
          (VisOK_after_step step hmono hkey hvis d s s1 C hstp hv)

/-- A successful `_install_with_deps` call preserves `VisOK`, with the
installed name added to the in-progress list. -/
theorem install_with_deps_vis (env : Env) (find : String → Option Recipe)
    (hco : Coherent find) :
    ∀ (fuel : Nat) (name : String) (s s' : St) (C : List String),
      install_with_deps env find fuel name s = (s', none) →
      VisOK s C → VisOK s' (name :: C) := by
  intro fuel
  induction fuel with
  | zero =>
    intro name s s' C h hv
    simp only [install_with_deps, Prod.mk.injEq] at h
    exact Option.noConfusion h.2
  | succ fuel ih =>
    intro name s s' C h hv
    by_cases hvm : name ∈ s.visited
    · simp only [install_with_deps, if_pos hvm, Prod.mk.injEq] at h
      rw [← h.1]
      exact VisOK_weaken name hv
    · simp only [install_with_deps, if_neg hvm] at h
      cases hf : find name with
      | none =>
        simp only [hf, Prod.mk.injEq] at h
        exact Option.noConfusion h.2
      | some r =>
        simp only [hf] at h
        rcases hl : installList (install_with_deps env find fuel) r.deps
            { s with visited := s.visited ++ [name] } with ⟨st2, e2⟩
        have hv1 : VisOK { s with visited := s.visited ++ [name] } (name :: C) := by
          intro v hvv
          rcases List.mem_append.mp hvv with h1 | h1
          · rcases hv v h1 with h2 | h2
            · exact Or.inl h2
            · exact Or.inr (List.mem_cons_of_mem _ h2)
          · simp only [List.mem_singleton] at h1
            exact Or.inr (h1 ▸ List.mem_cons_self _ _)
        cases e2 with
        | some e =>
          simp only [hl, Prod.mk.injEq] at h
          exact Option.noConfusion h.2
        | none =>
          simp only [hl] at h
          have hv2 : VisOK st2 (name :: C) :=
            installList_vis (install_with_deps env find fuel)
              (fun d s0 => install_with_deps_mono env find fuel d s0)
              (fun d s0 s1 hs hd =>
                install_with_deps_key env find hco fuel d s0 s1 hs hd)
              (fun d s0 s1 C0 hs hv0 => ih d s0 s1 C0 hs hv0)
              r.deps { s with visited := s.visited ++ [name] } st2
              (name :: C) hl hv1
          by_cases hdb : name ∈ names st2.db
          · simp only [if_pos hdb, Prod.mk.injEq] at h
            rw [← h.1]
            exact hv2
          · simp only [if_neg hdb] at h
            intro v hvv
            have hvis' : v ∈ st2.visited := by
              have := bi_visited env r st2
              rw [h] at this
              rw [← this]
              exact hvv
            rcases hv2 v hvis' with h1 | h1
            · refine Or.inl ?_
              have hm := bi_mono env r st2
              rw [h] at hm
              exact mem_names_mono hm.1 h1
            · exact Or.inr h1

/-- After a successful dependency loop started with invariant
`VisOK s C`, every listed dependency outside `C` is recorded. -/
theorem installList_deps (step : String → St → St × Option Err)
    (hmono : ∀ d s, StMono s (step d s).1)
    (hkey : ∀ d s s1, step d s = (s1, none) → d ∉ s.visited → d ∈ names s1.db)
    (hvis : ∀ d s s1 C, step d s = (s1, none) → VisOK s C → VisOK s1 (d :: C)) :
    ∀ (l : List String) (s s' : St) (C : List String),
      installList step l s = (s', none) → VisOK s C →
      ∀ d ∈ l, d ∉ C → d ∈ names s'.db := by
  intro l
  induction l with
  | nil => intro s s' C h hv d hd; exact absurd hd (List.not_mem_nil d)
  | cons d0 rest ih =>
    intro s s' C h hv d hd hdC
    have hmrest : ∀ s0 s1, installList step rest s0 = (s1, none) →
        s0.db <+: s1.db := by
      intro s0 s1 h0
      have := installList_mono step hmono rest s0
      rw [h0] at this
      exact this.1
    rcases List.mem_cons.mp hd with hdd | hdd
    · by_cases hd0 : d0 ∈ names s.db
      · simp only [installList, if_pos hd0] at h
        refine mem_names_mono (hmrest s s' h) ?_
        rw [hdd]
        exact hd0
      · simp only [installList, if_neg hd0] at h
        rcases hstp : step d0 s with ⟨s1, e⟩
        cases e with
        | some e =>
          simp only [hstp, Prod.mk.injEq] at h
          exact Option.noConfusion h.2
        | none =>
          simp only [hstp] at h
          have hd0v : d0 ∉ s.visited := by
            intro hin
            rcases hv d0 hin with h1 | h1
            · exact hd0 h1
            · exact hdC (hdd ▸ h1)
          refine mem_names_mono (hmrest s1 s' h) ?_
          rw [hdd]
          exact hkey d0 s s1 hstp hd0v
    · by_cases hd0 : d0 ∈ names s.db
      · simp only [installList, if_pos hd0] at h
        exact ih s s' C h hv d hdd hdC
      · simp only [installList, if_neg hd0] at h
        rcases hstp : step d0 s with ⟨s1, e⟩
        cases e with
        | some e =>
          simp only [hstp, Prod.mk.injEq] at h
          exact Option.noConfusion h.2
        | none =>
          simp only [hstp] at h
          exact ih s1 s' C h
            (VisOK_after_step step hmono hkey hvis d0 s s1 C hstp hv) d hdd hdC

/-! ### The claims -/

/-- C9: whenever the manifest file is absent, or present but not
parseable as JSON, `DB._load` yields the empty mapping without raising,
so every package name is treated as not installed; a corrupt manifest is
silently equivalent to an empty one. -/
theorem claim_C9 (parse : String → Option (List (String × String)))
    (contents : Option String)
    (h : contents = none ∨ ∃ s, contents = some s ∧ parse s = none) :
    dbLoad parse contents = [] ∧ ∀ n : String, n ∉ names (dbLoad parse contents) := by
  rcases h with h | ⟨s, hs, hp⟩
  · rw [h]
    exact ⟨rfl, by simp [dbLoad, names]⟩
  · rw [hs]
    simp [dbLoad, hp, names]

theorem claim_C9_witness :
    dbLoad (fun _ => none) (some "corrupt") = [] ∧
      ∀ n : String, n ∉ names (dbLoad (fun _ => none) (some "corrupt")) :=
  claim_C9 (fun _ => none) (some "corrupt") (Or.inr ⟨"corrupt", rfl, rfl⟩)

/-- C8 (amended): in genpkg1.0.py the per-package log is append-only —
`run_logged` opens the file in mode "a", so across any run the previous
contents remain a prefix of the new contents, whichever commands run,
succeed or fail.  (In genpkg.py v0.9, by contrast, the log is truncated
on each build; see the counterexample.) -/
theorem claim_C8 (ok : String → Bool) (out : String → List String)
    (cmds : List String) (log : List String) :
    log <+: runBuildLog10 ok out cmds log := by
  induction cmds generalizing log with
  | nil => exact List.prefix_refl _
  | cons c rest ih =>
    by_cases h : ok c
    · simp only [runBuildLog10, if_pos h]
      exact (show log <+: run_logged log c (out c) from ⟨_, rfl⟩).trans (ih _)
    · simp only [runBuildLog10, if_neg h]
      exact ⟨_, rfl⟩

/-- C8 counterexample: in genpkg.py (v0.9) `_run_build_commands` opens
the per-package log with mode "w", so a later build truncates the
previous run's content: the old contents are not a prefix of (indeed are
absent from) the new contents.  This refutes "the per-package log file is
append-only across repeated runs" for that implementation. -/
theorem claim_C8_counterexample :
    runBuildLog09 (fun c => ["output of " ++ c]) ["make"] ["previous run"] =
      ["output of make"] ∧
    ¬ (["previous run"] <+:
        runBuildLog09 (fun c => ["output of " ++ c]) ["make"] ["previous run"]) := by
  constructor
  · rfl
  · decide

/-- C1 (amended): `install_package_files` rejects archives with an
absolute-path member: it raises before extracting anything, so it fails
with an error and writes no file into the install root, and absolute
paths are never silently sanitized.  (Member paths escaping the root via
".." are, however, not detected; see the counterexample.) -/
theorem claim_C1 (members : List String) (root : String)
    (h : ∃ m ∈ members, strStartsWith m "/" = true) :
    (∃ msg, install_package_files members root = Except.error msg) ∧
    unpackWrites members root = [] := by
  have hany : members.any (fun m => strStartsWith m "/") = true := by
    rcases h with ⟨m, hm, hs⟩
    exact List.any_eq_true.mpr ⟨m, hm, hs⟩
  refine ⟨⟨"Entrada invalida no tar", ?_⟩, ?_⟩
  · simp [install_package_files, hany]
  · simp [unpackWrites, install_package_files, hany]

theorem claim_C1_witness :
    (∃ msg, install_package_files ["/etc/passwd"] "/target" = Except.error msg) ∧
    unpackWrites ["/etc/passwd"] "/target" = [] :=
  claim_C1 ["/etc/passwd"] "/target" ⟨"/etc/passwd", by decide, by decide⟩

/-- C1 counterexample: an archive member escaping the install root via
".." is not a fatal error: `install_package_files` succeeds on member
"../evil" under root "/target" and extraction writes the file at
"/evil", outside the install root.  This refutes "escaping paths are a
fatal error" as stated for all escaping paths. -/
theorem claim_C1_counterexample :
    install_package_files ["../evil"] "/target" =
      Except.ok (["../evil"], ["/evil"]) ∧
    unpackWrites ["../evil"] "/target" = ["/evil"] ∧
    strStartsWith "/evil" "/target" = false := by
  refine ⟨rfl, by decide, by decide⟩

/-- With distinct paths in the filesystem, lookup of a present entry
returns its kind. -/
theorem lookupKind_of_nodup (fs : FS) (p : String) (k : FKind)
    (hnd : (fs.map Prod.fst).Nodup) (h : (p, k) ∈ fs) :
    lookupKind fs p = some k := by
  induction fs with
  | nil => exact absurd h (List.not_mem_nil _)
  | cons q rest ih =>
    simp only [List.map_cons, List.nodup_cons] at hnd
    rcases List.mem_cons.mp h with h1 | h1
    · rw [← h1]
      simp [lookupKind, List.find?]
    · have hq : q.1 ≠ p := by
        intro he
        exact hnd.1 (he ▸ (List.mem_map.mpr ⟨(p, k), h1, rfl⟩))
      simp only [lookupKind, List.find?, hq, decide_eq_false hq, Bool.false_eq_true,
        if_false]
      exact ih hnd.2 h1

/-- Erasure keeps distinctness of the stored paths. -/
theorem eraseP_nodup (fs : FS) (a : String)
    (hnd : (fs.map Prod.fst).Nodup) : ((eraseP fs a).map Prod.fst).Nodup := by
  have hsub : List.Sublist (eraseP fs a) fs := List.filter_sublist fs
  exact hnd.sublist (hsub.map Prod.fst)

/-- Membership survives erasure of a different path. -/
theorem mem_eraseP (fs : FS) (a p : String) (k : FKind)
    (h : (p, k) ∈ fs) (hne : p ≠ a) : (p, k) ∈ eraseP fs a := by
  refine List.mem_filter.mpr ⟨h, ?_⟩
  simp [hne]

/-- One removal step deletes nothing whose resolved path lies outside
every allow-listed prefix when the install root is the real "/". -/
theorem removeStep_keep_outside (fs : FS) (rel p : String) (k : FKind)
    (hp : (p, k) ∈ fs)
    (hout : ∀ pref ∈ ALLOWED_REMOVE_PREFIXES, strStartsWith p pref = false) :
    (p, k) ∈ removeStep "/" fs rel := by
  unfold removeStep
  by_cases hg : (decide (("/" : String) = "/") &&
      !(ALLOWED_REMOVE_PREFIXES.any
        (fun pref => strStartsWith (resolvePath "/" rel) pref))) = true
  · rw [if_pos hg]
    exact hp
  · rw [if_neg hg]
    have hany : ALLOWED_REMOVE_PREFIXES.any
        (fun pref => strStartsWith (resolvePath "/" rel) pref) = true := by
      by_contra hno
      apply hg
      simp only [Bool.not_eq_true] at hno
      simp [hno]
    have hpa : p ≠ resolvePath "/" rel := by
      intro he
      rcases List.any_eq_true.mp hany with ⟨pref, hpref, hsw⟩
      rw [← he] at hsw
      rw [hout pref hpref] at hsw
      exact Bool.noConfusion hsw
    rcases hk : lookupKind fs (resolvePath "/" rel) with _ | k0
    · exact hp
    · cases k0 with
      | file => exact mem_eraseP fs _ p k hp hpa
      | symlink => exact mem_eraseP fs _ p k hp hpa
      | dir =>
        by_cases hc : hasChild fs (resolvePath "/" rel) = true
        · rw [if_pos hc]
          exact hp
        · rw [if_neg hc]
          exact mem_eraseP fs _ p k hp hpa

/-- C4: when the install root is the real system root "/", `Installer.remove`
deletes only paths under the allow-listed top-level prefixes
(`ALLOWED_REMOVE_PREFIXES`, string-prefix test as in the code): any
filesystem entry whose path starts with none of them is skipped and left
in place, whatever relative paths the manifest lists — even erroneous
ones. -/
theorem claim_C4 (files : List String) (fs : FS) (p : String) (k : FKind)
    (hp : (p, k) ∈ fs)
    (hout : ∀ pref ∈ ALLOWED_REMOVE_PREFIXES, strStartsWith p pref = false) :
    (p, k) ∈ removeFiles "/" files fs := by
  unfold removeFiles
  generalize sortBy (fun a b => decide (depthOf b ≤ depthOf a)) files = l
  induction l generalizing fs with
  | nil => exact hp
  | cons rel rest ih =>
    exact ih (removeStep "/" fs rel) (removeStep_keep_outside fs rel p k hp hout)

theorem claim_C4_witness :
    ("/home/user/.bashrc", FKind.file) ∈
      removeFiles "/" ["home/user/.bashrc", "usr/bin/foo"]
        [("/home/user/.bashrc", FKind.file), ("/usr/bin/foo", FKind.file)] :=
  claim_C4 ["home/user/.bashrc", "usr/bin/foo"]
    [("/home/user/.bashrc", FKind.file), ("/usr/bin/foo", FKind.file)]
    "/home/user/.bashrc" FKind.file (by decide) (by decide)

/-- One removal step never deletes a directory that still has an entry
below it, and deletes nothing but the resolved target of its relative
path. -/
theorem removeStep_dir_keep (root : String) (fs : FS) (rel p c : String)
    (k : FKind) (hnd : (fs.map Prod.fst).Nodup)
    (hdir : (p, FKind.dir) ∈ fs) (hc : (c, k) ∈ fs) (hne : c ≠ p)
    (hunder : strStartsWith c (p ++ "/") = true)
    (hrelc : resolvePath root rel ≠ c) :
    ((removeStep root fs rel).map Prod.fst).Nodup ∧
      (p, FKind.dir) ∈ removeStep root fs rel ∧
      (c, k) ∈ removeStep root fs rel := by
  have hchild : hasChild fs p = true := by
    refine List.any_eq_true.mpr ⟨(c, k), hc, ?_⟩
    simp [hne, hunder]
  unfold removeStep
  by_cases hg : (decide (root = "/") &&
      !(ALLOWED_REMOVE_PREFIXES.any
        (fun pref => strStartsWith (resolvePath root rel) pref))) = true
  · rw [if_pos hg]
    exact ⟨hnd, hdir, hc⟩
  · rw [if_neg hg]
    rcases hk : lookupKind fs (resolvePath root rel) with _ | k0
    · exact ⟨hnd, hdir, hc⟩
    · have hpa : p ≠ resolvePath root rel ∨ k0 = FKind.dir := by
        by_cases he : p = resolvePath root rel
        · rw [← he] at hk
          rw [lookupKind_of_nodup fs p FKind.dir hnd hdir] at hk
          exact Or.inr (Option.some.inj hk).symm
        · exact Or.inl he
      cases k0 with
      | file =>
        have hpa' : p ≠ resolvePath root rel := by
          rcases hpa with h1 | h1
          · exact h1
          · exact FKind.noConfusion h1
        exact ⟨eraseP_nodup fs _ hnd, mem_eraseP fs _ p _ hdir hpa',
          mem_eraseP fs _ c k hc hrelc.symm⟩
      | symlink =>
        have hpa' : p ≠ resolvePath root rel := by
          rcases hpa with h1 | h1
          · exact h1
          · exact FKind.noConfusion h1
        exact ⟨eraseP_nodup fs _ hnd, mem_eraseP fs _ p _ hdir hpa',
          mem_eraseP fs _ c k hc hrelc.symm⟩
      | dir =>
        by_cases hcc : hasChild fs (resolvePath root rel) = true
        · rw [if_pos hcc]
          exact ⟨hnd, hdir, hc⟩
        · rw [if_neg hcc]
          have hpa' : p ≠ resolvePath root rel := by
            intro he
            rw [← he] at hcc
            exact hcc hchild
          exact ⟨eraseP_nodup fs _ hnd, mem_eraseP fs _ p _ hdir hpa',
            mem_eraseP fs _ c k hc hrelc.symm⟩

/-- C10: `Installer.remove` unlinks only files and symlinks and removes a
directory only via `rmdir` with the `OSError` swallowed, so a directory
that still contains an entry is never deleted: if some entry strictly
below directory `p` is not itself a target of the removal list, `p`
survives the whole removal loop. -/
theorem claim_C10 (root : String) (files : List String) (fs : FS)
    (p c : String) (k : FKind)
    (hnd : (fs.map Prod.fst).Nodup)
    (hdir : (p, FKind.dir) ∈ fs)
    (hc : (c, k) ∈ fs) (hne : c ≠ p)
    (hunder : strStartsWith c (p ++ "/") = true)
    (hcnot : ∀ rel ∈ files, resolvePath root rel ≠ c) :
    (p, FKind.dir) ∈ removeFiles root files fs := by
  unfold removeFiles
  have hsort : ∀ rel ∈ sortBy (fun a b => decide (depthOf b ≤ depthOf a)) files,
      resolvePath root rel ≠ c := by
    intro rel hrel
    refine hcnot rel ?_
    have hperm : ∀ (le : String → String → Bool) (l : List String),
        ∀ x ∈ sortBy le l, x ∈ l := by
      intro le l
      induction l with
      | nil => intro x hx; exact absurd hx (List.not_mem_nil _)
      | cons y ys ih =>
        intro x hx
        have hins : ∀ (z : String) (m : List String), ∀ w ∈ insertSorted le z m,
            w = z ∨ w ∈ m := by
          intro z m
          induction m with
          | nil =>
            intro w hw
            simp only [insertSorted, List.mem_singleton] at hw
            exact Or.inl hw
          | cons u us ihm =>
            intro w hw
            simp only [insertSorted] at hw
            by_cases hle : le z u = true
            · rw [if_pos hle] at hw
              rcases List.mem_cons.mp hw with h1 | h1
              · exact Or.inl h1
              · exact Or.inr h1
            · rw [if_neg hle] at hw
              rcases List.mem_cons.mp hw with h1 | h1
              · exact Or.inr (h1 ▸ List.mem_cons_self _ _)
              · rcases ihm w h1 with h2 | h2
                · exact Or.inl h2
                · exact Or.inr (List.mem_cons_of_mem _ h2)
        simp only [sortBy] at hx
        rcases hins y (sortBy le ys) x hx with h1 | h1
        · exact h1 ▸ List.mem_cons_self _ _
        · exact List.mem_cons_of_mem _ (ih x h1)
    exact hperm _ files rel hrel
  generalize hl : sortBy (fun a b => decide (depthOf b ≤ depthOf a)) files = l
  rw [hl] at hsort
  clear hl
  induction l generalizing fs with
  | nil => exact hdir
  | cons rel rest ih =>
    have hstep := removeStep_dir_keep root fs rel p c k hnd hdir hc hne hunder
      (hsort rel (List.mem_cons_self _ _))
    exact ih (removeStep root fs rel) hstep.1 hstep.2.1 hstep.2.2
      (fun r hr => hsort r (List.mem_cons_of_mem _ hr))

theorem claim_C10_witness :
    ("/r/d", FKind.dir) ∈
      removeFiles "/r" ["d"] [("/r/d", FKind.dir), ("/r/d/keep", FKind.file)] :=
  claim_C10 "/r" ["d"] [("/r/d", FKind.dir), ("/r/d/keep", FKind.file)]
    "/r/d" "/r/d/keep" FKind.file (by decide) (by decide) (by decide)
    (by decide) (by decide) (by intro rel hrel; fin_cases hrel; decide)

/-! ### Concrete fixtures used to instantiate the claims -/

/-- A recipe store backed by a fixed list of recipes, keyed (as the
on-disk index is) by the recipe's own name. -/
def findOf (rs : List Recipe) : String → Option Recipe := fun n =>
  match rs.find? (fun r => r.name = n) with
  | some r => some r
  | none => none

theorem findOf_coherent (rs : List Recipe) : Coherent (findOf rs) := by
  intro n r h
  unfold findOf at h
  rcases hf : rs.find? (fun r => r.name = n) with _ | r0
  · rw [hf] at h
    exact Option.noConfusion h
  · rw [hf] at h
    have hp := List.find?_some hf
    cases h
    exact of_decide_eq_true hp

/-- Environment in which every external action succeeds. -/
def envAll : Env :=
  { runOk := fun _ => true, fetchOk := fun _ => true, patchOk := fun _ => true,
    cmdOk := fun _ _ => true, packOk := fun _ => true, unpackOk := fun _ => true }

/-- Shorthand for a hook- and patch-free recipe. -/
def mkRecipe (n v u : String) (ds cs : List String) : Recipe :=
  { name := n, version := v, url := u, deps := ds, commands := cs, patches := [],
    pre_install := [], post_install := [], pre_remove := [], post_remove := [] }

/-- C3: for every package name and every failure raised at any pipeline
step before the InstallRecord is written (hooks, fetch, patches, a build
command, packaging, or unpack), Install leaves that name with no
InstallRecord: contrapositively, any name newly present in the manifest
after Install had every pipeline step — including Unpack — complete, so
a name is never recorded unless Unpack completed for it. -/
theorem claim_C3 (env : Env) (find : String → Option Recipe) (fuel : Nat)
    (name : String) (db0 : List (String × String)) (st' : St) (e : Option Err)
    (n : String) (hco : Coherent find)
    (hrun : install env find fuel name db0 = (st', e))
    (hn : n ∈ names st'.db) (hn0 : n ∉ names db0) :
    ∃ r, find n = some r ∧ pipelineOk env r = true := by
  unfold install at hrun
  have hp := install_with_deps_pipe env find hco fuel name
    { db := db0, visited := [], trace := [] } n
  rw [hrun] at hp
  rcases hp hn with h1 | h1
  · exact absurd h1 hn0
  · exact h1

def rec3 : Recipe := mkRecipe "pkg" "1.0" "http://pkg" [] ["make"]

theorem claim_C3_witness :
    ∃ r, findOf [rec3] "pkg" = some r ∧ pipelineOk envAll r = true :=
  claim_C3 envAll (findOf [rec3]) 2 "pkg" []
    { db := [("pkg", "1.0")], visited := ["pkg"],
      trace := [Event.buildCmd "pkg" "make", Event.record "pkg"] } none "pkg"
    (findOf_coherent [rec3]) (by decide) (by decide) (by decide)

/-- Core of C5, stated for `_install_with_deps` from any state whose
visited names are all recorded, that P has not visited, and whose trace
has no build command of P yet. -/
theorem C5_aux (env : Env) (find : String → Option Recipe) (fuel : Nat)
    (P D : String) (rP : Recipe) (s st' : St) (e : Option Err) (c0 : String)
    (hco : Coherent find) (hfind : find P = some rP)
    (hD : D ∈ rP.deps) (hne : D ≠ P) (hD0 : D ∉ names s.db)
    (hPv : P ∉ s.visited) (hvis : VisOK s [])
    (hnb : ∀ c, Event.buildCmd P c ∉ s.trace)
    (hrun : install_with_deps env find (fuel + 1) P s = (st', e))
    (hbc : Event.buildCmd P c0 ∈ st'.trace) :
    ∃ t1 t2, st'.trace = t1 ++ t2 ∧ Event.record D ∈ t1 ∧
      ∀ c, Event.buildCmd P c ∉ t1 := by
  simp only [install_with_deps, if_neg hPv, hfind] at hrun
  rcases hl : installList (install_with_deps env find fuel) rP.deps
      { s with visited := s.visited ++ [P] } with ⟨st2, e2⟩
  have hs1vis : VisOK { s with visited := s.visited ++ [P] } [P] := by
    intro v hv
    rcases List.mem_append.mp hv with h1 | h1
    · rcases hvis v h1 with h2 | h2
      · exact Or.inl h2
      · exact absurd h2 (List.not_mem_nil v)
    · simp only [List.mem_singleton] at h1
      exact Or.inr (h1 ▸ List.mem_singleton_self P)
  have hnoPb : ∀ c, Event.buildCmd P c ∉ st2.trace := by
    intro c hcin
    have hb := installList_build (install_with_deps env find fuel)
      (fun d s0 => install_with_deps_mono env find fuel d s0)
      (fun d s0 p c1 h => install_with_deps_build env find hco fuel d s0 p c1 h)
      rP.deps { s with visited := s.visited ++ [P] } P c
    rw [hl] at hb
    rcases hb hcin with h1 | h1
    · exact hnb c h1
    · exact h1 (List.mem_append_right _ (List.mem_singleton_self P))
  cases e2 with
  | some e0 =>
    simp only [hl, Prod.mk.injEq] at hrun
    rw [← hrun.1] at hbc
    exact absurd hbc (hnoPb c0)
  | none =>
    simp only [hl] at hrun
    by_cases hdb : P ∈ names st2.db
    · rw [if_pos hdb, Prod.mk.injEq] at hrun
      rw [← hrun.1] at hbc
      exact absurd hbc (hnoPb c0)
    · rw [if_neg hdb] at hrun
      have hDdb : D ∈ names st2.db := by
        have hd := installList_deps (install_with_deps env find fuel)
          (fun d s0 => install_with_deps_mono env find fuel d s0)
          (fun d s0 s1 hs hdv =>
            install_with_deps_key env find hco fuel d s0 s1 hs hdv)
          (fun d s0 s1 C0 hs hv0 =>
            install_with_deps_vis env find hco fuel d s0 s1 C0 hs hv0)
          rP.deps { s with visited := s.visited ++ [P] } st2 [P] hl hs1vis D hD
        refine hd ?_
        intro hDP
        simp only [List.mem_singleton] at hDP
        exact hne hDP
      have hrec : Event.record D ∈ st2.trace := by
        have hr := installList_rec (install_with_deps env find fuel)
          (fun d s0 => install_with_deps_mono env find fuel d s0)
          (fun d s0 n h => install_with_deps_rec env find fuel d s0 n h)
          rP.deps { s with visited := s.visited ++ [P] } D
        rw [hl] at hr
        rcases hr hDdb with h1 | h1
        · exact absurd h1 hD0
        · exact h1
      rcases bi_trace env rP st2 with ⟨dd, hdd, _⟩
      refine ⟨st2.trace, dd, ?_, hrec, fun c => hnoPb c⟩
      rw [hrun] at hdd
      exact hdd

/-- C5: for every package P with a dependency D not yet installed (and,
per the recipe data model, D different from P), during a top-level
`Install(P)` the InstallRecord for D is written strictly before any of
P's build commands execute: the trace splits so that a record event for
D precedes every build-command event of P. -/
theorem claim_C5 (env : Env) (find : String → Option Recipe) (fuel : Nat)
    (P D : String) (rP : Recipe) (db0 : List (String × String))
    (st' : St) (e : Option Err) (c0 : String)
    (hco : Coherent find) (hfind : find P = some rP)
    (hD : D ∈ rP.deps) (hne : D ≠ P) (hD0 : D ∉ names db0)
    (hrun : install env find fuel P db0 = (st', e))
    (hbc : Event.buildCmd P c0 ∈ st'.trace) :
    ∃ t1 t2, st'.trace = t1 ++ t2 ∧ Event.record D ∈ t1 ∧
      ∀ c, Event.buildCmd P c ∉ t1 := by
  unfold install at hrun
  cases fuel with
  | zero =>
    simp only [install_with_deps, Prod.mk.injEq] at hrun
    rw [← hrun.1] at hbc
    exact absurd hbc (List.not_mem_nil _)
  | succ fuel =>
    exact C5_aux env find fuel P D rP
      { db := db0, visited := [], trace := [] } st' e c0 hco hfind hD hne hD0
      (List.not_mem_nil P) (fun v hv => absurd hv (List.not_mem_nil v))
      (fun c => List.not_mem_nil _) hrun hbc

def recP5 : Recipe := mkRecipe "P" "1.0" "http://p" ["D"] ["makeP"]
def recD5 : Recipe := mkRecipe "D" "1.0" "http://d" [] []

theorem claim_C5_witness :
    ∃ t1 t2,
      ({ db := [("D", "1.0"), ("P", "1.0")], visited := ["P", "D"],
         trace := [Event.record "D", Event.buildCmd "P" "makeP",
           Event.record "P"] } : St).trace = t1 ++ t2 ∧
      Event.record "D" ∈ t1 ∧ ∀ c, Event.buildCmd "P" c ∉ t1 :=
  claim_C5 envAll (findOf [recP5, recD5]) 3 "P" "D" recP5 []
    { db := [("D", "1.0"), ("P", "1.0")], visited := ["P", "D"],
      trace := [Event.record "D", Event.buildCmd "P" "makeP",
        Event.record "P"] } none "makeP"
    (findOf_coherent [recP5, recD5]) (by decide) (by decide) (by decide)
    (by decide) (by decide) (by decide)

/-- The dependency loop is a no-op when every listed dependency is
already recorded. -/
theorem installList_id (step : String → St → St × Option Err) :
    ∀ (l : List String) (s : St), (∀ d ∈ l, d ∈ names s.db) →
      installList step l s = (s, none) := by
  intro l
  induction l with
  | nil => intro s _; rfl
  | cons d rest ih =>
    intro s h
    have hd : d ∈ names s.db := h d (List.mem_cons_self _ _)
    simp only [installList, if_pos hd]
    exact ih s (fun d0 hd0 => h d0 (List.mem_cons_of_mem _ hd0))

/-- Core of C6: from any state, `_install_with_deps` on an unvisited,
already-recorded name whose recipe resolves and whose dependencies are
all recorded only adds the name to the visited set. -/
theorem C6_aux (env : Env) (find : String → Option Recipe) (fuel : Nat)
    (name : String) (r : Recipe) (s : St)
    (hfind : find name = some r) (hv : name ∉ s.visited)
    (hin : name ∈ names s.db) (hdeps : ∀ d ∈ r.deps, d ∈ names s.db) :
    install_with_deps env find (fuel + 1) name s =
      ({ s with visited := s.visited ++ [name] }, none) := by
  simp only [install_with_deps, if_neg hv, hfind]
  rw [installList_id (install_with_deps env find fuel) r.deps
    { s with visited := s.visited ++ [name] } hdeps]
  show (if name ∈ names ({ s with visited := s.visited ++ [name] } : St).db then
      (({ s with visited := s.visited ++ [name] } : St), (none : Option Err))
    else build_and_install env r { s with visited := s.visited ++ [name] }) =
    ({ s with visited := s.visited ++ [name] }, none)
  rw [if_pos hin]

/-- C6 (amended): for every package name with an InstallRecord present,
whose recipe still resolves and all of whose recipe dependencies also
have InstallRecords, `Install(name)` is a no-op: it runs no pipeline step
(empty trace) and leaves the manifest unchanged.  In particular, directly
after a successful `Install(name)` these conditions hold, so the second
of two successive calls performs no pipeline step — the pipeline runs
once.  (When a dependency has no record — e.g. it was removed later —
`Install(name)` is not a no-op: it installs that dependency; see the
counterexample.) -/
theorem claim_C6 (env : Env) (find : String → Option Recipe) (fuel : Nat)
    (name : String) (r : Recipe) (db0 : List (String × String))
    (hfind : find name = some r) (hin : name ∈ names db0)
    (hdeps : ∀ d ∈ r.deps, d ∈ names db0) :
    (install env find (fuel + 1) name db0).1.db = db0 ∧
    (install env find (fuel + 1) name db0).1.trace = [] ∧
    (install env find (fuel + 1) name db0).2 = none := by
  unfold install
  rw [C6_aux env find fuel name r { db := db0, visited := [], trace := [] }
    hfind (List.not_mem_nil name) hin hdeps]
  exact ⟨rfl, rfl, rfl⟩

def recX6 : Recipe := mkRecipe "X" "1.0" "http://x" ["Y"] []
def recY6 : Recipe := mkRecipe "Y" "1.0" "http://y" [] ["makeY"]

theorem claim_C6_witness :
    (install envAll (findOf [recX6, recY6]) 3 "X"
        [("X", "1.0"), ("Y", "1.0")]).1.db = [("X", "1.0"), ("Y", "1.0")] ∧
    (install envAll (findOf [recX6, recY6]) 3 "X"
        [("X", "1.0"), ("Y", "1.0")]).1.trace = [] ∧
    (install envAll (findOf [recX6, recY6]) 3 "X"
        [("X", "1.0"), ("Y", "1.0")]).2 = none :=
  claim_C6 envAll (findOf [recX6, recY6]) 2 "X" recX6
    [("X", "1.0"), ("Y", "1.0")] (by decide) (by decide) (by decide)

/-- C6 counterexample: `Install` of an already-recorded package is not in
general a no-op, because the dependency loop runs before the
already-installed check.  With X recorded but its dependency Y not
recorded (e.g. Y was removed), `Install("X")` builds and records Y:
the manifest changes and pipeline steps (Y's build command) run.  This
refutes "for every package name with an InstallRecord present,
Install(name) runs no build pipeline step and leaves the manifest
unchanged". -/
theorem claim_C6_counterexample :
    "X" ∈ names [("X", "1.0")] ∧
    (install envAll (findOf [recX6, recY6]) 3 "X" [("X", "1.0")]).1.db =
      [("X", "1.0"), ("Y", "1.0")] ∧
    (install envAll (findOf [recX6, recY6]) 3 "X" [("X", "1.0")]).1.trace =
      [Event.buildCmd "Y" "makeY", Event.record "Y"] := by
  refine ⟨by decide, by decide, by decide⟩

/-- C7 (amended): errors are not scoped per branch.  There is no
`try/except` around the recursive dependency install: when the install
of the first missing dependency raises any error (fetch failure, build
failure, ...), that exception propagates out of the whole top-level
`Install` unchanged — the remaining sibling dependencies are never
processed and the parent package is never built (the final state is
exactly the state at which the dependency failed).  Only `__main__`
catches it, printing and exiting non-zero. -/
theorem claim_C7 (env : Env) (find : String → Option Recipe) (fuel : Nat)
    (p : String) (rp : Recipe) (a : String) (rest : List String)
    (db0 : List (String × String)) (stA : St) (e : Err)
    (hfind : find p = some rp) (hdeps : rp.deps = a :: rest)
    (ha : a ∉ names db0)
    (hstep : install_with_deps env find fuel a
        { db := db0, visited := [p], trace := [] } = (stA, some e)) :
    install env find (fuel + 1) p db0 = (stA, some e) := by
  unfold install
  simp only [install_with_deps, if_neg (List.not_mem_nil p), hfind, hdeps,
    List.nil_append]
  have h1 : installList (install_with_deps env find fuel) (a :: rest)
      { db := db0, visited := [p], trace := [] } = (stA, some e) := by
    simp only [installList]
    rw [if_neg ha, hstep]
  rw [h1]

def recP7 : Recipe := mkRecipe "P" "1.0" "http://p7" ["A", "B"] ["makeP"]
def recA7 : Recipe := mkRecipe "A" "1.0" "urlA" [] ["makeA"]
def recB7 : Recipe := mkRecipe "B" "1.0" "http://b7" [] ["makeB"]

/-- Environment in which only the download of "urlA" (package A's
source) fails. -/
def envFetchA : Env :=
  { runOk := fun _ => true, fetchOk := fun u => decide (u ≠ "urlA"),
    patchOk := fun _ => true, cmdOk := fun _ _ => true,
    packOk := fun _ => true, unpackOk := fun _ => true }

theorem claim_C7_witness :
    install envFetchA (findOf [recP7, recA7, recB7]) 3 "P" [] =
      ({ db := [], visited := ["P", "A"], trace := [] },
        some (Err.fetchFailed "A")) :=
  claim_C7 envFetchA (findOf [recP7, recA7, recB7]) 2 "P" recP7 "A" ["B"]
    [] { db := [], visited := ["P", "A"], trace := [] } (Err.fetchFailed "A")
    (by decide) (by decide) (by decide) (by decide)

/-- C7 counterexample: a plain fetch failure in one dependency (A) of P
aborts the entire top-level `Install(P)`: the operation ends with A's
fetch error, the sibling dependency B is never installed nor even
started, and P is never built — no build command at all runs.  This
refutes "a non-structural error in one package's pipeline aborts only
that package's branch; only structural (cycle) and manifest-I/O errors
abort the whole top-level operation". -/
theorem claim_C7_counterexample :
    (install envFetchA (findOf [recP7, recA7, recB7]) 3 "P" []).2 =
      some (Err.fetchFailed "A") ∧
    "B" ∉ names (install envFetchA (findOf [recP7, recA7, recB7]) 3 "P" []).1.db ∧
    (install envFetchA (findOf [recP7, recA7, recB7]) 3 "P" []).1.trace = [] := by
  refine ⟨by decide, by decide, by decide⟩

/-- One-step unfolding of `_install_with_deps` at successor fuel. -/
theorem install_with_deps_succ (env : Env) (find : String → Option Recipe)
    (fuel : Nat) (name : String) (s : St) :
    install_with_deps env find (fuel + 1) name s =
      (if name ∈ s.visited then (s, none)
      else
        match find name with
        | none => ({ s with visited := s.visited ++ [name] },
            some (Err.recipeNotFound name))
        | some r =>
          match installList (install_with_deps env find fuel) r.deps
              { s with visited := s.visited ++ [name] } with
          | (st2, some e) => (st2, some e)
          | (st2, none) =>
            if name ∈ names st2.db then (st2, none)
            else build_and_install env r st2) := rfl

/-- C2 (amended): `_install_with_deps` performs no cycle detection — no
cyclic-dependency error exists in the code.  On a dependency cycle
a → b → a with neither installed, the visited-set guard silently ends
the re-entrant call; when every pipeline step succeeds the install
completes without any error and records BOTH packages on the cycle in
the manifest (b first, then a). -/
theorem claim_C2 (env : Env) (find : String → Option Recipe) (fuel : Nat)
    (a b : String) (ra rb : Recipe) (db0 : List (String × String))
    (hco : Coherent find)
    (hfa : find a = some ra) (hfb : find b = some rb)
    (hda : ra.deps = [b]) (hdb : rb.deps = [a])
    (hab : a ≠ b) (ha0 : a ∉ names db0) (hb0 : b ∉ names db0)
    (hpa : pipelineOk env ra = true) (hpb : pipelineOk env rb = true) :
    (install env find (fuel + 1 + 1 + 1) a db0).2 = none ∧
    a ∈ names (install env find (fuel + 1 + 1 + 1) a db0).1.db ∧
    b ∈ names (install env find (fuel + 1 + 1 + 1) a db0).1.db := by
  have hna : ra.name = a := hco a ra hfa
  have hnb : rb.name = b := hco b rb hfb
  have hbv : b ∉ [a] := by
    intro h
    exact hab (List.mem_singleton.mp h).symm
  have h1 : install_with_deps env find (fuel + 1) a
      { db := db0, visited := [a, b], trace := [] } =
      ({ db := db0, visited := [a, b], trace := [] }, none) := by
    rw [install_with_deps_succ]
    rw [if_pos (List.mem_cons_self a [b])]
  have h2 : installList (install_with_deps env find (fuel + 1)) [a]
      { db := db0, visited := [a, b], trace := [] } =
      ({ db := db0, visited := [a, b], trace := [] }, none) := by
    simp only [installList]
    rw [if_neg ha0, h1]
  have h3 : install_with_deps env find (fuel + 1 + 1) b
      { db := db0, visited := [a], trace := [] } =
      ({ db := db0 ++ [(rb.name, rb.version)], visited := [a, b],
         trace := cmdEvents rb ++ [Event.record rb.name] }, none) := by
    rw [install_with_deps_succ]
    rw [if_neg hbv]
    simp only [hfb, hdb, List.cons_append, List.nil_append]
    rw [h2]
    show (if b ∈ names db0 then
        (({ db := db0, visited := [a, b], trace := [] } : St), (none : Option Err))
      else build_and_install env rb { db := db0, visited := [a, b], trace := [] }) =
      ({ db := db0 ++ [(rb.name, rb.version)], visited := [a, b],
         trace := cmdEvents rb ++ [Event.record rb.name] }, none)
    rw [if_neg hb0]
    rw [bi_of_pipelineOk env rb _ hpb]
    rfl
  have h4 : installList (install_with_deps env find (fuel + 1 + 1)) [b]
      { db := db0, visited := [a], trace := [] } =
      ({ db := db0 ++ [(rb.name, rb.version)], visited := [a, b],
         trace := cmdEvents rb ++ [Event.record rb.name] }, none) := by
    simp only [installList]
    rw [if_neg hb0, h3]
  have ha3 : ¬ a ∈ names (db0 ++ [(rb.name, rb.version)]) := by
    intro h
    rw [names_append] at h
    rcases List.mem_append.mp h with h1 | h1
    · exact ha0 h1
    · simp only [names, List.map_cons, List.map_nil, List.mem_singleton] at h1
      rw [hnb] at h1
      exact hab h1
  have h5 : install env find (fuel + 1 + 1 + 1) a db0 =
      ({ db := db0 ++ [(rb.name, rb.version)] ++ [(ra.name, ra.version)],
         visited := [a, b],
         trace := (cmdEvents rb ++ [Event.record rb.name]) ++ cmdEvents ra ++
           [Event.record ra.name] }, none) := by
    unfold install
    rw [install_with_deps_succ]
    rw [if_neg (List.not_mem_nil a)]
    simp only [hfa, hda, List.nil_append]
    rw [h4]
    show (if a ∈ names (db0 ++ [(rb.name, rb.version)]) then
        (({ db := db0 ++ [(rb.name, rb.version)], visited := [a, b],
            trace := cmdEvents rb ++ [Event.record rb.name] } : St),
          (none : Option Err))
      else build_and_install env ra
        { db := db0 ++ [(rb.name, rb.version)], visited := [a, b],
          trace := cmdEvents rb ++ [Event.record rb.name] }) =
      ({ db := db0 ++ [(rb.name, rb.version)] ++ [(ra.name, ra.version)],
         visited := [a, b],
         trace := (cmdEvents rb ++ [Event.record rb.name]) ++ cmdEvents ra ++
           [Event.record ra.name] }, none)
    rw [if_neg ha3]
    rw [bi_of_pipelineOk env ra _ hpa]
  rw [h5]
  refine ⟨rfl, ?_, ?_⟩
  · rw [names_append]
    refine List.mem_append_right _ ?_
    simp [names, hna]
  · rw [names_append, names_append]
    refine List.mem_append_left _ (List.mem_append_right _ ?_)
    simp [names, hnb]

def recA2 : Recipe := mkRecipe "A" "1.0" "http://a2" ["B"] ["makeA"]
def recB2 : Recipe := mkRecipe "B" "1.0" "http://b2" ["A"] ["makeB"]

theorem claim_C2_witness :
    (install envAll (findOf [recA2, recB2]) (2 + 1 + 1 + 1) "A" []).2 = none ∧
    "A" ∈ names (install envAll (findOf [recA2, recB2])
        (2 + 1 + 1 + 1) "A" []).1.db ∧
    "B" ∈ names (install envAll (findOf [recA2, recB2])
        (2 + 1 + 1 + 1) "A" []).1.db :=
  claim_C2 envAll (findOf [recA2, recB2]) 2 "A" "B" recA2 recB2 []
    (findOf_coherent [recA2, recB2]) (by decide) (by decide) (by decide)
    (by decide) (by decide) (by decide) (by decide) (by decide) (by decide)

/-- C2 counterexample: on the dependency cycle A → B → A with neither A
nor B installed and every pipeline step succeeding, `Install("A")` does
NOT fail: it returns no error (the `Err` type of the code has no
cyclic-dependency constructor at all, and no exception is raised), and
afterwards BOTH A and B have InstallRecords in the manifest.  This
refutes "Install fails with a fatal cyclic-dependency error ... and
afterwards no package on the cycle has an InstallRecord". -/
theorem claim_C2_counterexample :
    (install envAll (findOf [recA2, recB2]) 5 "A" []).2 = none ∧
    (install envAll (findOf [recA2, recB2]) 5 "A" []).1.db =
      [("B", "1.0"), ("A", "1.0")] ∧
    "A" ∈ names (install envAll (findOf [recA2, recB2]) 5 "A" []).1.db ∧
    "B" ∈ names (install envAll (findOf [recA2, recB2]) 5 "A" []).1.db := by
  refine ⟨by decide, by decide, by decide, by decide⟩

end Genpkg
